import Mathlib

/-!
Shallow embedding of `src/research/qpack_manual.py` and
`src/research/qpack_static_table.py` (manual QPACK encoder, RFC 9204).

Byte strings are `List Nat` (each element a byte value); Python `int`
arguments are `Int` (they may be negative), byte counts and accumulated
integer values are `Nat`.  A Python function that can raise becomes a
function into `Except QpackError _`; stateful methods of the tracker and
the encoder return `Except QpackError _ × State`, threading the state
even on the error path so that a mutation made before an exception would
be visible (Python has no rollback).
-/

/-- Error kinds of spec section 7.  Every `raise ValueError` site of the
source is mapped to its kind; `indexError` stands for Python's
`IndexError` (popping from an empty list, indexing an empty buffer),
which no documented path is supposed to reach. -/
inductive QpackError where
  | invalidArgument
  | notSupported
  | capacityExceedsLimit
  | entryTooLarge
  | indexOutOfRange
  | malformedInteger
  | indexError
deriving DecidableEq, Repr

/-- The continuation-byte loop of `encode_integer` (qpack_manual.py lines
44-49): while `value >= 0x80` emit `(value & 0x7F) | 0x80` and shift right
by 7; finally emit the remaining byte. -/
def contBytes (value : Nat) : List Nat :=
  if value < 0x80 then [value]
  else ((value &&& 0x7F) ||| 0x80) :: contBytes (value >>> 7)
termination_by value
decreasing_by
  rename_i h
  rw [Nat.shiftRight_eq_div_pow]
  exact Nat.div_lt_self (by omega) (by norm_num)

/-- qpack_manual.py lines 23-50: `encode_integer(value, prefix_bits)`. -/
def encode_integer (value prefix_bits : Int) : Except QpackError (List Nat) :=
  if value < 0 then .error .invalidArgument
  else if ¬(1 ≤ prefix_bits ∧ prefix_bits ≤ 8) then .error .invalidArgument
  else
    let maxPref : Nat := (1 <<< prefix_bits.toNat) - 1
    if value < (maxPref : Int) then .ok [value.toNat]
    else .ok (maxPref :: contBytes (value.toNat - maxPref))

/-- The continuation-byte loop of `decode_integer` (qpack_manual.py lines
70-79): arguments are the bytes not yet read, the accumulated value, the
current shift and the count of bytes consumed so far. -/
def decodeCont : List Nat → Nat → Nat → Nat → Except QpackError (Nat × Nat)
  | [], _, _, _ => .error .malformedInteger
  | byte :: rest, value, shift, consumed =>
    let value := value + ((byte &&& 0x7F) <<< shift)
    if byte &&& 0x80 = 0 then .ok (value, consumed + 1)
    else decodeCont rest value (shift + 7) (consumed + 1)

/-- qpack_manual.py lines 53-81: `decode_integer(data, offset, prefix_bits)`.
The offset is a position in `data`, so a `Nat`. -/
def decode_integer (data : List Nat) (offset : Nat) (prefix_bits : Int) :
    Except QpackError (Nat × Nat) :=
  if ¬(1 ≤ prefix_bits ∧ prefix_bits ≤ 8) then .error .invalidArgument
  else if data.length ≤ offset then .error .malformedInteger
  else
    let maxPref : Nat := (1 <<< prefix_bits.toNat) - 1
    let value := data.getD offset 0 &&& maxPref
    if value < maxPref then .ok (value, 1)
    else decodeCont (data.drop (offset + 1)) value 0 1

/-- qpack_manual.py lines 89-99: `encode_string(value, use_huffman)`. -/
def encode_string (value : List Nat) (use_huffman : Bool) :
    Except QpackError (List Nat) :=
  if use_huffman then .error .notSupported
  else
    match encode_integer (value.length : Int) 7 with
    | .error e => .error e
    | .ok length_bytes => .ok (length_bytes ++ value)

/-- qpack_manual.py lines 107-117: `set_dynamic_table_capacity(capacity)`. -/
def set_dynamic_table_capacity (capacity : Int) : Except QpackError (List Nat) :=
  if capacity < 0 then .error .invalidArgument
  else
    match encode_integer capacity 5 with
    | .error e => .error e
    | .ok [] => .error .indexError
    | .ok (b :: rest) => .ok ((b ||| 0x20) :: rest)

/-- qpack_manual.py lines 120-135: `insert_with_name_ref(index, value, is_static)`. -/
def insert_with_name_ref (index : Int) (value : List Nat) (is_static : Bool) :
    Except QpackError (List Nat) :=
  if index < 0 then .error .invalidArgument
  else
    match encode_integer index 6 with
    | .error e => .error e
    | .ok [] => .error .indexError
    | .ok (b :: rest) =>
      let b := b ||| 0x80
      let b := if is_static then b ||| 0x40 else b
      match encode_string value false with
      | .error e => .error e
      | .ok value_str => .ok ((b :: rest) ++ value_str)

/-- qpack_manual.py lines 138-152: `insert_with_literal_name(name, value)`. -/
def insert_with_literal_name (name value : List Nat) :
    Except QpackError (List Nat) :=
  match encode_string name false with
  | .error e => .error e
  | .ok [] => .error .indexError
  | .ok (b :: rest) =>
    match encode_string value false with
    | .error e => .error e
    | .ok value_str => .ok ((b ||| 0x40) :: rest ++ value_str)

/-- qpack_manual.py lines 155-164: the module-level `duplicate(index)`
builder (renamed, since the encoder method of the same name must be able
to refer to it). -/
def duplicateInstruction (index : Int) : Except QpackError (List Nat) :=
  if index < 0 then .error .invalidArgument
  else encode_integer index 5

/-- qpack_manual.py line 171: `ENTRY_OVERHEAD`. -/
def ENTRY_OVERHEAD : Nat := 32

/-- qpack_manual.py lines 174-181: `DynamicTableEntry`. -/
structure DynamicTableEntry where
  name : List Nat
  value : List Nat
deriving DecidableEq, Repr

/-- The `size` property of an entry. -/
def DynamicTableEntry.size (e : DynamicTableEntry) : Nat :=
  e.name.length + e.value.length + ENTRY_OVERHEAD

/-- qpack_manual.py lines 184-226: `DynamicTableTracker`.  `entries` is
newest-first (index 0 = newest); `capacity` is a Python int, so `Int`. -/
structure DynamicTableTracker where
  entries : List DynamicTableEntry
  capacity : Int
  insert_count : Nat
deriving DecidableEq, Repr

/-- `DynamicTableTracker.__init__`. -/
def initialTracker : DynamicTableTracker := ⟨[], 0, 0⟩

/-- Sum of entry sizes of a list (helper shared by the tracker). -/
def currentSizeList (es : List DynamicTableEntry) : Nat :=
  (es.map DynamicTableEntry.size).sum

/-- qpack_manual.py lines 196-197: `current_size`. -/
def DynamicTableTracker.current_size (t : DynamicTableTracker) : Nat :=
  currentSizeList t.entries

/-- The loop of `_evict` (qpack_manual.py lines 224-226): while
`current_size() > capacity and entries`, pop the last entry. -/
def evictLoop (capacity : Int) (es : List DynamicTableEntry) :
    List DynamicTableEntry :=
  if (currentSizeList es : Int) > capacity ∧ es ≠ [] then
    evictLoop capacity es.dropLast
  else es
termination_by es.length
decreasing_by
  rename_i h
  rcases es with _ | ⟨a, tl⟩
  · exact absurd rfl h.2
  · simp [List.length_dropLast]

/-- qpack_manual.py lines 199-201: `set_capacity` sets the field, then
evicts with the new capacity. -/
def DynamicTableTracker.set_capacity (t : DynamicTableTracker) (capacity : Int) :
    DynamicTableTracker :=
  { t with capacity := capacity, entries := evictLoop capacity t.entries }

/-- The eviction loop of `insert` (qpack_manual.py lines 210-211): while
`current_size() + entry.size > capacity`, pop the last entry.  Popping an
empty list would raise `IndexError`; the error value carries the entries
as they stand at that point. -/
def insertEvictLoop (capacity : Int) (size : Nat) (es : List DynamicTableEntry) :
    Except (List DynamicTableEntry) (List DynamicTableEntry) :=
  if (currentSizeList es + size : Int) > capacity then
    if h : es = [] then .error []
    else insertEvictLoop capacity size es.dropLast
  else .ok es
termination_by es.length
decreasing_by
  rcases es with _ | ⟨a, tl⟩
  · exact absurd rfl h
  · simp [List.length_dropLast]

/-- qpack_manual.py lines 203-213: `DynamicTableTracker.insert`. -/
def DynamicTableTracker.insert (t : DynamicTableTracker) (name value : List Nat) :
    Except QpackError Unit × DynamicTableTracker :=
  let entry : DynamicTableEntry := ⟨name, value⟩
  if (entry.size : Int) > t.capacity then (.error .entryTooLarge, t)
  else
    match insertEvictLoop t.capacity entry.size t.entries with
    | .error es => (.error .indexError, { t with entries := es })
    | .ok es =>
      (.ok (), { t with entries := entry :: es, insert_count := t.insert_count + 1 })

/-- qpack_manual.py lines 215-222: `DynamicTableTracker.duplicate`. -/
def DynamicTableTracker.duplicate (t : DynamicTableTracker) (relative_index : Int) :
    Except QpackError Unit × DynamicTableTracker :=
  if relative_index < 0 ∨ relative_index ≥ (t.entries.length : Int) then
    (.error .indexOutOfRange, t)
  else
    let source := t.entries.getD relative_index.toNat ⟨[], []⟩
    t.insert source.name source.value

/-- Bytes of an ASCII string literal: every string of the static table is
ASCII, so the byte values are the character codes. -/
def asciiBytes (s : String) : List Nat := s.data.map Char.toNat

/-- qpack_static_table.py lines 7-110: `STATIC_TABLE`, the 99 (name, value)
pairs of RFC 9204 Appendix A, in order. -/
def STATIC_TABLE : List (List Nat × List Nat) := [
  (asciiBytes ":authority", asciiBytes ""),
  (asciiBytes ":path", asciiBytes "/"),
  (asciiBytes "age", asciiBytes "0"),
  (asciiBytes "content-disposition", asciiBytes ""),
  (asciiBytes "content-length", asciiBytes "0"),
  (asciiBytes "cookie", asciiBytes ""),
  (asciiBytes "date", asciiBytes ""),
  (asciiBytes "etag", asciiBytes ""),
  (asciiBytes "if-modified-since", asciiBytes ""),
  (asciiBytes "if-none-match", asciiBytes ""),
  (asciiBytes "last-modified", asciiBytes ""),
  (asciiBytes "link", asciiBytes ""),
  (asciiBytes "location", asciiBytes ""),
  (asciiBytes "referer", asciiBytes ""),
  (asciiBytes "set-cookie", asciiBytes ""),
  (asciiBytes ":method", asciiBytes "CONNECT"),
  (asciiBytes ":method", asciiBytes "DELETE"),
  (asciiBytes ":method", asciiBytes "GET"),
  (asciiBytes ":method", asciiBytes "HEAD"),
  (asciiBytes ":method", asciiBytes "OPTIONS"),
  (asciiBytes ":method", asciiBytes "POST"),
  (asciiBytes ":method", asciiBytes "PUT"),
  (asciiBytes ":scheme", asciiBytes "http"),
  (asciiBytes ":scheme", asciiBytes "https"),
  (asciiBytes ":status", asciiBytes "103"),
  (asciiBytes ":status", asciiBytes "200"),
  (asciiBytes ":status", asciiBytes "304"),
  (asciiBytes ":status", asciiBytes "404"),
  (asciiBytes ":status", asciiBytes "503"),
  (asciiBytes "accept", asciiBytes "*/*"),
  (asciiBytes "accept", asciiBytes "application/dns-message"),
  (asciiBytes "accept-encoding", asciiBytes "gzip, deflate, br"),
  (asciiBytes "accept-ranges", asciiBytes "bytes"),
  (asciiBytes "access-control-allow-headers", asciiBytes "cache-control"),
  (asciiBytes "access-control-allow-headers", asciiBytes "content-type"),
  (asciiBytes "access-control-allow-origin", asciiBytes "*"),
  (asciiBytes "cache-control", asciiBytes "max-age=0"),
  (asciiBytes "cache-control", asciiBytes "max-age=2592000"),
  (asciiBytes "cache-control", asciiBytes "max-age=604800"),
  (asciiBytes "cache-control", asciiBytes "no-cache"),
  (asciiBytes "cache-control", asciiBytes "no-store"),
  (asciiBytes "cache-control", asciiBytes "public, max-age=31536000"),
  (asciiBytes "content-encoding", asciiBytes "br"),
  (asciiBytes "content-encoding", asciiBytes "gzip"),
  (asciiBytes "content-type", asciiBytes "application/dns-message"),
  (asciiBytes "content-type", asciiBytes "application/javascript"),
  (asciiBytes "content-type", asciiBytes "application/json"),
  (asciiBytes "content-type", asciiBytes "application/x-www-form-urlencoded"),
  (asciiBytes "content-type", asciiBytes "image/gif"),
  (asciiBytes "content-type", asciiBytes "image/jpeg"),
  (asciiBytes "content-type", asciiBytes "image/png"),
  (asciiBytes "content-type", asciiBytes "text/css"),
  (asciiBytes "content-type", asciiBytes "text/html; charset=utf-8"),
  (asciiBytes "content-type", asciiBytes "text/plain"),
  (asciiBytes "content-type", asciiBytes "text/plain;charset=utf-8"),
  (asciiBytes "range", asciiBytes "bytes=0-"),
  (asciiBytes "strict-transport-security", asciiBytes "max-age=31536000"),
  (asciiBytes "strict-transport-security", asciiBytes "max-age=31536000; includesubdomains"),
  (asciiBytes "strict-transport-security", asciiBytes "max-age=31536000; includesubdomains; preload"),
  (asciiBytes "vary", asciiBytes "accept-encoding"),
  (asciiBytes "vary", asciiBytes "origin"),
  (asciiBytes "x-content-type-options", asciiBytes "nosniff"),
  (asciiBytes "x-xss-protection", asciiBytes "1; mode=block"),
  (asciiBytes ":status", asciiBytes "100"),
  (asciiBytes ":status", asciiBytes "204"),
  (asciiBytes ":status", asciiBytes "206"),
  (asciiBytes ":status", asciiBytes "302"),
  (asciiBytes ":status", asciiBytes "400"),
  (asciiBytes ":status", asciiBytes "403"),
  (asciiBytes ":status", asciiBytes "421"),
  (asciiBytes ":status", asciiBytes "425"),
  (asciiBytes ":status", asciiBytes "500"),
  (asciiBytes "accept-language", asciiBytes ""),
  (asciiBytes "access-control-allow-credentials", asciiBytes "FALSE"),
  (asciiBytes "access-control-allow-credentials", asciiBytes "TRUE"),
  (asciiBytes "access-control-allow-headers", asciiBytes "*"),
  (asciiBytes "access-control-allow-methods", asciiBytes "get"),
  (asciiBytes "access-control-allow-methods", asciiBytes "get, post, options"),
  (asciiBytes "access-control-allow-methods", asciiBytes "options"),
  (asciiBytes "access-control-expose-headers", asciiBytes "content-length"),
  (asciiBytes "access-control-request-headers", asciiBytes "content-type"),
  (asciiBytes "access-control-request-method", asciiBytes "get"),
  (asciiBytes "access-control-request-method", asciiBytes "post"),
  (asciiBytes "alt-svc", asciiBytes "clear"),
  (asciiBytes "authorization", asciiBytes ""),
  (asciiBytes "content-security-policy",
    asciiBytes "script-src \x27none\x27; object-src \x27none\x27; base-uri \x27none\x27"),
  (asciiBytes "early-data", asciiBytes "1"),
  (asciiBytes "expect-ct", asciiBytes ""),
  (asciiBytes "forwarded", asciiBytes ""),
  (asciiBytes "if-range", asciiBytes ""),
  (asciiBytes "origin", asciiBytes ""),
  (asciiBytes "purpose", asciiBytes "prefetch"),
  (asciiBytes "server", asciiBytes ""),
  (asciiBytes "timing-allow-origin", asciiBytes "*"),
  (asciiBytes "upgrade-insecure-requests", asciiBytes "1"),
  (asciiBytes "user-agent", asciiBytes ""),
  (asciiBytes "x-forwarded-for", asciiBytes ""),
  (asciiBytes "x-frame-options", asciiBytes "deny"),
  (asciiBytes "x-frame-options", asciiBytes "sameorigin")]

/-- qpack_static_table.py line 112: `STATIC_TABLE_SIZE = len(STATIC_TABLE)`. -/
def STATIC_TABLE_SIZE : Nat := STATIC_TABLE.length

/-- qpack_manual.py lines 234-342: `ManualQpackEncoder` state: the owned
tracker and the `max_table_capacity` ceiling. -/
structure ManualQpackEncoder where
  table : DynamicTableTracker
  max_table_capacity : Int
deriving DecidableEq, Repr

/-- `ManualQpackEncoder.__init__(max_table_capacity)`. -/
def ManualQpackEncoder.init (max_table_capacity : Int) : ManualQpackEncoder :=
  ⟨initialTracker, max_table_capacity⟩

/-- qpack_manual.py lines 262-276: `ManualQpackEncoder.set_capacity`. -/
def ManualQpackEncoder.set_capacity (s : ManualQpackEncoder) (capacity : Int) :
    Except QpackError (List Nat) × ManualQpackEncoder :=
  if capacity < 0 then (.error .invalidArgument, s)
  else if capacity > s.max_table_capacity then (.error .capacityExceedsLimit, s)
  else
    match set_dynamic_table_capacity capacity with
    | .error e => (.error e, s)
    | .ok instruction =>
      (.ok instruction, { s with table := s.table.set_capacity capacity })

/-- qpack_manual.py lines 278-311: `ManualQpackEncoder.insert_name_ref`. -/
def ManualQpackEncoder.insert_name_ref (s : ManualQpackEncoder) (index : Int)
    (value : List Nat) (is_static : Bool) :
    Except QpackError (List Nat) × ManualQpackEncoder :=
  let nameRes : Except QpackError (List Nat) :=
    if is_static then
      if index < 0 ∨ index ≥ (STATIC_TABLE_SIZE : Int) then .error .indexOutOfRange
      else .ok (STATIC_TABLE.getD index.toNat ([], [])).1
    else
      if index < 0 ∨ index ≥ (s.table.entries.length : Int) then .error .indexOutOfRange
      else .ok (s.table.entries.getD index.toNat ⟨[], []⟩).name
  match nameRes with
  | .error e => (.error e, s)
  | .ok name =>
    let entry_size := name.length + value.length + ENTRY_OVERHEAD
    if (entry_size : Int) > s.table.capacity then (.error .entryTooLarge, s)
    else
      match insert_with_name_ref index value is_static with
      | .error e => (.error e, s)
      | .ok instruction =>
        match s.table.insert name value with
        | (.ok _, t) => (.ok instruction, { s with table := t })
        | (.error e, t) => (.error e, { s with table := t })

/-- qpack_manual.py lines 313-327: `ManualQpackEncoder.insert_literal`. -/
def ManualQpackEncoder.insert_literal (s : ManualQpackEncoder)
    (name value : List Nat) : Except QpackError (List Nat) × ManualQpackEncoder :=
  let entry_size := name.length + value.length + ENTRY_OVERHEAD
  if (entry_size : Int) > s.table.capacity then (.error .entryTooLarge, s)
  else
    match insert_with_literal_name name value with
    | .error e => (.error e, s)
    | .ok instruction =>
      match s.table.insert name value with
      | (.ok _, t) => (.ok instruction, { s with table := t })
      | (.error e, t) => (.error e, { s with table := t })

/-- qpack_manual.py lines 329-342: `ManualQpackEncoder.duplicate`. -/
def ManualQpackEncoder.duplicate (s : ManualQpackEncoder) (relative_index : Int) :
    Except QpackError (List Nat) × ManualQpackEncoder :=
  if relative_index < 0 ∨ relative_index ≥ (s.table.entries.length : Int) then
    (.error .indexOutOfRange, s)
  else
    match duplicateInstruction relative_index with
    | .error e => (.error e, s)
    | .ok instruction =>
      match s.table.duplicate relative_index with
      | (.ok _, t) => (.ok instruction, { s with table := t })
      | (.error e, t) => (.error e, { s with table := t })

/-! ### Integer codec lemmas -/

theorem testBit_eq_false_of_mod_eq_zero {f k i : Nat} (hf : f % 2 ^ k = 0)
    (hik : i < k) : f.testBit i = false := by
  have h := Nat.testBit_mod_two_pow f k i
  rw [hf, Nat.zero_testBit] at h
  simpa [hik] using h.symm

theorem lor_mod_two_pow {x f k : Nat} (hf : f % 2 ^ k = 0) :
    (x ||| f) % 2 ^ k = x % 2 ^ k := by
  apply Nat.eq_of_testBit_eq
  intro i
  rw [Nat.testBit_mod_two_pow, Nat.testBit_mod_two_pow, Nat.testBit_lor]
  by_cases h : i < k
  · rw [testBit_eq_false_of_mod_eq_zero hf h]
    simp
  · simp [h]

/-- OR-ing flag bits that live above the prefix does not change the masked
prefix value. -/
theorem land_lor_flag {x f k : Nat} (hf : f % 2 ^ k = 0) :
    (x ||| f) &&& (2 ^ k - 1) = x &&& (2 ^ k - 1) := by
  rw [Nat.and_pow_two_sub_one_eq_mod, Nat.and_pow_two_sub_one_eq_mod]
  exact lor_mod_two_pow hf

theorem land_eq_of_lt {x k : Nat} (h : x < 2 ^ k) : x &&& (2 ^ k - 1) = x := by
  rw [Nat.and_pow_two_sub_one_eq_mod]
  exact Nat.mod_eq_of_lt h

theorem land_two_pow_eq_zero {x k : Nat} (h : x < 2 ^ k) : x &&& 2 ^ k = 0 := by
  rw [Nat.and_two_pow, Nat.testBit_lt_two_pow h]
  simp

theorem land_two_pow_ne_zero {x k : Nat} (h : x.testBit k = true) :
    x &&& 2 ^ k ≠ 0 := by
  rw [Nat.and_two_pow, h]
  simpa using (Nat.two_pow_pos k).ne'

/-- Decoding the continuation bytes that `encode_integer` emits adds the
encoded remainder (shifted by the current shift) to the accumulator and
consumes exactly those bytes, whatever follows them. -/
theorem decodeCont_contBytes (m : Nat) :
    ∀ (extra : List Nat) (acc shift consumed : Nat),
      decodeCont (contBytes m ++ extra) acc shift consumed =
        .ok (acc + m <<< shift, consumed + (contBytes m).length) := by
  induction m using Nat.strong_induction_on with
  | _ m ih =>
    intro extra acc shift consumed
    rw [contBytes]
    by_cases h : m < 0x80
    · have hm127 : m &&& 0x7F = m := by
        have : (0x7F : Nat) = 2 ^ 7 - 1 := by norm_num
        rw [this]
        exact land_eq_of_lt (by norm_num at h ⊢; omega)
      have hm128 : m &&& 0x80 = 0 := by
        have : (0x80 : Nat) = 2 ^ 7 := by norm_num
        rw [this]
        exact land_two_pow_eq_zero (by norm_num at h ⊢; omega)
      simp [if_pos h, decodeCont, hm127, hm128]
    · have hb127 : ((m &&& 0x7F) ||| 0x80) &&& 0x7F = m &&& 0x7F := by
        have h80 : (0x80 : Nat) = 2 ^ 7 := by norm_num
        have h7f : (0x7F : Nat) = 2 ^ 7 - 1 := by norm_num
        rw [h80, h7f, land_lor_flag (Nat.mul_mod_left 1 (2 ^ 7) ▸ by simp),
          ← h7f, Nat.and_assoc]
        simp
      have hb128 : ((m &&& 0x7F) ||| 0x80) &&& 0x80 ≠ 0 := by
        have h80 : (0x80 : Nat) = 2 ^ 7 := by norm_num
        rw [h80]
        apply land_two_pow_ne_zero
        have h7 : Nat.testBit (2 ^ 7) 7 = true := by decide
        rw [Nat.testBit_lor, h7, Bool.or_true]
      have hrec := ih (m >>> 7)
        (by rw [Nat.shiftRight_eq_div_pow]; exact Nat.div_lt_self (by omega) (by norm_num))
        extra (acc + ((m &&& 0x7F) <<< shift)) (shift + 7) (consumed + 1)
      have harith : acc + ((m &&& 0x7F) <<< shift) + (m >>> 7) <<< (shift + 7) =
          acc + m <<< shift := by
        have h7f : (0x7F : Nat) = 2 ^ 7 - 1 := by norm_num
        rw [h7f, Nat.and_pow_two_sub_one_eq_mod, Nat.shiftRight_eq_div_pow,
          Nat.shiftLeft_eq, Nat.shiftLeft_eq, Nat.shiftLeft_eq, pow_add]
        have hf : m % 2 ^ 7 * 2 ^ shift + m / 2 ^ 7 * (2 ^ shift * 2 ^ 7) =
            (m % 2 ^ 7 + m / 2 ^ 7 * 2 ^ 7) * 2 ^ shift := by ring
        rw [Nat.add_assoc, hf, Nat.mod_add_div']
      rw [if_neg h, List.cons_append]
      simp only [decodeCont, hb127]
      rw [if_neg hb128, hrec, harith]
      simp only [List.length_cons]
      congr 2
      omega

/-- Shape of `encode_integer` for a valid prefix width: it succeeds on
every `Nat` value, its first byte is below `2 ^ p`, and OR-ing flag bits
that live above the prefix into that first byte still decodes to the
original value, consuming exactly the integer's bytes, whatever bytes
follow them. -/
theorem decode_encode_with_flag (v : Nat) (p : Int) (f : Nat) (extra : List Nat)
    (h1 : 1 ≤ p) (h2 : p ≤ 8) (hf : f % 2 ^ p.toNat = 0) :
    ∃ b tl, encode_integer (v : Int) p = .ok (b :: tl) ∧ b < 2 ^ p.toNat ∧
      decode_integer ((b ||| f) :: (tl ++ extra)) 0 p = .ok (v, tl.length + 1) := by
  have hk1 : 1 ≤ p.toNat := by omega
  have hnn : ¬((v : Int) < 0) := by omega
  have hpp : ¬¬(1 ≤ p ∧ p ≤ 8) := by omega
  have hsh : (1 <<< p.toNat) - 1 = 2 ^ p.toNat - 1 := by
    rw [Nat.shiftLeft_eq, one_mul]
  have hmp1 : 1 ≤ 2 ^ p.toNat - 1 := by
    have := Nat.one_lt_two_pow_iff.mpr (by omega : p.toNat ≠ 0)
    omega
  have henc : encode_integer (v : Int) p =
      (if (v : Int) < ((2 ^ p.toNat - 1 : Nat) : Int) then .ok [v]
       else .ok ((2 ^ p.toNat - 1) :: contBytes (v - (2 ^ p.toNat - 1)))) := by
    simp only [encode_integer, if_neg hnn, if_neg hpp, hsh, Int.toNat_natCast]
  have hdec : ∀ b0 rest2, decode_integer (b0 :: rest2) 0 p =
      (if b0 &&& (2 ^ p.toNat - 1) < 2 ^ p.toNat - 1 then
        .ok (b0 &&& (2 ^ p.toNat - 1), 1)
       else decodeCont rest2 (b0 &&& (2 ^ p.toNat - 1)) 0 1) := by
    intro b0 rest2
    simp only [decode_integer, if_neg hpp, hsh, List.length_cons, List.drop_succ_cons,
      List.drop_zero, List.getD_cons_zero]
    rw [if_neg (by omega : ¬(rest2.length + 1 ≤ 0))]
  by_cases hv : (v : Int) < ((2 ^ p.toNat - 1 : Nat) : Int)
  · have hvlt : v < 2 ^ p.toNat - 1 := by exact_mod_cast hv
    refine ⟨v, [], ?_, by omega, ?_⟩
    · rw [henc, if_pos hv]
    · rw [List.nil_append, hdec]
      have hmask : (v ||| f) &&& (2 ^ p.toNat - 1) = v := by
        rw [land_lor_flag hf]
        exact land_eq_of_lt (by omega)
      rw [hmask, if_pos hvlt]
      simp
  · have hvge : 2 ^ p.toNat - 1 ≤ v := by
      have : ¬(v < 2 ^ p.toNat - 1) := fun hc => hv (by exact_mod_cast hc)
      omega
    refine ⟨2 ^ p.toNat - 1, contBytes (v - (2 ^ p.toNat - 1)), ?_, by omega, ?_⟩
    · rw [henc, if_neg hv]
    · rw [hdec]
      have hmask : ((2 ^ p.toNat - 1) ||| f) &&& (2 ^ p.toNat - 1) =
          2 ^ p.toNat - 1 := by
        rw [land_lor_flag hf]
        exact land_eq_of_lt (by omega)
      rw [hmask, if_neg (lt_irrefl _), decodeCont_contBytes]
      have : (v - (2 ^ p.toNat - 1)) <<< 0 = v - (2 ^ p.toNat - 1) := by
        rw [Nat.shiftLeft_eq, pow_zero, mul_one]
      rw [this]
      congr 2
      · omega
      · omega

/-- C1: integer codec round-trip.  For every non-negative integer `v` and
prefix width `p` with `1 <= p <= 8`, `encode_integer(v, p)` succeeds and
`decode_integer` of its output at offset 0 with prefix width `p` returns
`(v, n)` where `n` is the byte length of the encoding. -/
theorem C1_integer_roundtrip (v : Nat) (p : Int) (h1 : 1 ≤ p) (h2 : p ≤ 8) :
    ∃ bs, encode_integer (v : Int) p = .ok bs ∧
      decode_integer bs 0 p = .ok (v, bs.length) := by
  obtain ⟨b, tl, he, _, hd⟩ := decode_encode_with_flag v p 0 [] h1 h2 (by simp)
  refine ⟨b :: tl, he, ?_⟩
  simpa [List.length_cons] using hd

/-- C1 witness: the round trip at `v = 1337`, `p = 5` (the RFC 7541
worked example, encoding to three bytes). -/
theorem C1_integer_roundtrip_witness :
    ∃ bs, encode_integer ((1337 : Nat) : Int) 5 = .ok bs ∧
      decode_integer bs 0 5 = .ok (1337, bs.length) :=
  C1_integer_roundtrip 1337 5 (by norm_num) (by norm_num)

/-- The continuation loop fails exactly when every remaining byte has the
continuation (high) bit set, so the stream ends with no terminating byte. -/
theorem decodeCont_error_iff (l : List Nat) : ∀ acc shift consumed,
    (decodeCont l acc shift consumed = Except.error QpackError.malformedInteger ↔
      ∀ b ∈ l, b &&& 0x80 ≠ 0) := by
  induction l with
  | nil =>
    intro acc shift consumed
    simp [decodeCont]
  | cons b rest ih =>
    intro acc shift consumed
    rw [List.forall_mem_cons]
    simp only [decodeCont]
    by_cases hb : b &&& 0x80 = 0
    · rw [if_pos hb]
      simp [hb]
    · rw [if_neg hb, ih]
      simp [hb]

/-- The continuation loop signals no error kind other than
`malformedInteger`. -/
theorem decodeCont_error_eq (l : List Nat) : ∀ acc shift consumed e,
    decodeCont l acc shift consumed = .error e → e = .malformedInteger := by
  induction l with
  | nil =>
    intro acc shift consumed e h
    rw [decodeCont] at h
    injection h with h'
    exact h'.symm
  | cons b rest ih =>
    intro acc shift consumed e h
    simp only [decodeCont] at h
    by_cases hb : b &&& 0x80 = 0
    · rw [if_pos hb] at h
      exact Except.noConfusion h
    · rw [if_neg hb] at h
      exact ih _ _ _ _ h

/-- C9: with a valid prefix width, `decode_integer` fails with
MalformedInteger exactly when the offset is out of range, or the first
byte's prefix is saturated and every byte after the offset has the
continuation bit set (the stream ends before a terminating byte); and
MalformedInteger is the only failure it can signal, so in all other
cases it returns a value and a byte count. -/
theorem C9_decode_integer_failure (data : List Nat) (offset : Nat) (p : Int)
    (h1 : 1 ≤ p) (h2 : p ≤ 8) :
    (decode_integer data offset p = .error .malformedInteger ↔
      (data.length ≤ offset ∨
        (data.getD offset 0 &&& (2 ^ p.toNat - 1) = 2 ^ p.toNat - 1 ∧
         ∀ b ∈ data.drop (offset + 1), b &&& 0x80 ≠ 0))) ∧
    (∀ e, decode_integer data offset p = .error e → e = .malformedInteger) := by
  have hpp : ¬¬(1 ≤ p ∧ p ≤ 8) := by omega
  have hsh : (1 <<< p.toNat) - 1 = 2 ^ p.toNat - 1 := by
    rw [Nat.shiftLeft_eq, one_mul]
  have hform : decode_integer data offset p =
      (if data.length ≤ offset then .error .malformedInteger
       else if data.getD offset 0 &&& (2 ^ p.toNat - 1) < 2 ^ p.toNat - 1 then
         .ok (data.getD offset 0 &&& (2 ^ p.toNat - 1), 1)
       else decodeCont (data.drop (offset + 1))
         (data.getD offset 0 &&& (2 ^ p.toNat - 1)) 0 1) := by
    simp only [decode_integer, if_neg hpp, hsh]
  rw [hform]
  by_cases hoff : data.length ≤ offset
  · rw [if_pos hoff]
    refine ⟨by simp [hoff], fun e he => ?_⟩
    injection he with h'
    exact h'.symm
  · rw [if_neg hoff]
    have hle : data.getD offset 0 &&& (2 ^ p.toNat - 1) ≤ 2 ^ p.toNat - 1 := by
      rw [Nat.and_pow_two_sub_one_eq_mod]
      have := Nat.mod_lt (data.getD offset 0) (Nat.two_pow_pos p.toNat)
      omega
    by_cases hlt : data.getD offset 0 &&& (2 ^ p.toNat - 1) < 2 ^ p.toNat - 1
    · rw [if_pos hlt]
      refine ⟨⟨fun h' => Except.noConfusion h', fun hc => ?_⟩,
        fun e he => Except.noConfusion he⟩
      rcases hc with hc | ⟨hc1, _⟩
      · exact absurd hc hoff
      · omega
    · rw [if_neg hlt]
      refine ⟨?_, fun e he => decodeCont_error_eq _ _ _ _ _ he⟩
      rw [decodeCont_error_iff]
      constructor
      · intro hall
        exact Or.inr ⟨by omega, hall⟩
      · rintro (hc | ⟨_, hall⟩)
        · exact absurd hc hoff
        · exact hall

/-- C9 witness: the two-byte stream `[31, 154]` with prefix width 5 is a
saturated prefix followed by one continuation byte and no terminator, so
decoding fails with MalformedInteger. -/
theorem C9_decode_integer_failure_witness :
    (decode_integer [31, 154] 0 5 = .error .malformedInteger ↔
      (([31, 154] : List Nat).length ≤ 0 ∨
        (([31, 154] : List Nat).getD 0 0 &&& (2 ^ (5 : Int).toNat - 1) =
          2 ^ (5 : Int).toNat - 1 ∧
         ∀ b ∈ ([31, 154] : List Nat).drop (0 + 1), b &&& 0x80 ≠ 0))) ∧
    (∀ e, decode_integer [31, 154] 0 5 = .error e → e = .malformedInteger) :=
  C9_decode_integer_failure [31, 154] 0 5 (by norm_num) (by norm_num)

/-- C2 (code bug): `insert_with_literal_name` with a 32-byte name and an
empty value yields a first byte `0x60 = 0b01100000`: the bit the claimed
layout reserves for the name's Huffman flag (`0x20`) is set even though
Huffman is never used, and the low 5 bits hold 0, not the name length.
The name length was encoded with a 7-bit prefix, not the claimed (and
documented) 5-bit prefix. -/
theorem C2_literal_name_wire_format_bug :
    ∃ bs, insert_with_literal_name (List.replicate 32 0) [] = .ok bs ∧
      bs.headD 0 = 0x60 ∧ bs.headD 0 &&& 0x20 ≠ 0 ∧ bs.headD 0 &&& 0x1F = 0 := by
  refine ⟨0x60 :: (List.replicate 32 0 ++ [0]), by rfl, rfl, by decide, by decide⟩

/-! ### Dynamic table tracker lemmas -/

theorem currentSizeList_nil : currentSizeList [] = 0 := rfl

theorem currentSizeList_cons (e : DynamicTableEntry) (l : List DynamicTableEntry) :
    currentSizeList (e :: l) = e.size + currentSizeList l := by
  simp [currentSizeList]

theorem size_le_currentSizeList {e : DynamicTableEntry}
    {es : List DynamicTableEntry} (h : e ∈ es) : e.size ≤ currentSizeList es :=
  List.single_le_sum (fun x _ => Nat.zero_le x) _ (List.mem_map_of_mem _ h)

/-- The eviction loop inside `insert`, when the new entry alone fits,
never underflows and returns the longest newest-first prefix that leaves
room for the new entry. -/
theorem insertEvictLoop_spec (capacity : Int) (size : Nat) :
    ∀ (es : List DynamicTableEntry), (size : Int) ≤ capacity →
      ∃ k, k ≤ es.length ∧ insertEvictLoop capacity size es = .ok (es.take k) ∧
        (currentSizeList (es.take k) + size : Int) ≤ capacity ∧
        ∀ j, k < j → j ≤ es.length →
          (currentSizeList (es.take j) + size : Int) > capacity := by
  suffices H : ∀ (n : Nat) (es : List DynamicTableEntry), es.length = n →
      (size : Int) ≤ capacity →
      ∃ k, k ≤ es.length ∧ insertEvictLoop capacity size es = .ok (es.take k) ∧
        (currentSizeList (es.take k) + size : Int) ≤ capacity ∧
        ∀ j, k < j → j ≤ es.length →
          (currentSizeList (es.take j) + size : Int) > capacity by
    intro es h
    exact H es.length es rfl h
  intro n
  induction n using Nat.strong_induction_on with
  | _ n ih =>
    intro es hlen hsz
    rw [insertEvictLoop]
    by_cases hc : (currentSizeList es + size : Int) > capacity
    · rw [if_pos hc]
      have hne : es ≠ [] := by
        intro h0
        rw [h0, currentSizeList_nil] at hc
        simp at hc
        omega
      rw [dif_neg hne]
      have hlpos : 1 ≤ es.length := by
        cases es
        · exact absurd rfl hne
        · simp
      have hdl : es.dropLast.length = es.length - 1 := by
        simp [List.length_dropLast]
      obtain ⟨k, hk, heq, hfit, hmin⟩ :=
        ih (n - 1) (by omega) es.dropLast (by omega) hsz
      have hdt : es.dropLast = es.take (es.length - 1) := List.dropLast_eq_take es
      have htk : ∀ j, j ≤ es.length - 1 → es.dropLast.take j = es.take j := by
        intro j hj
        rw [hdt, List.take_take, min_eq_left hj]
      rw [hdl] at hk
      refine ⟨k, by omega, ?_, ?_, ?_⟩
      · rw [heq, htk k hk]
      · rw [htk k hk] at hfit
        exact hfit
      · intro j hkj hjn
        by_cases hj : j ≤ es.length - 1
        · have := hmin j hkj (by omega)
          rw [htk j hj] at this
          exact this
        · have hje : j = es.length := by omega
          rw [hje, List.take_length]
          exact hc
    · rw [if_neg hc]
      refine ⟨es.length, le_refl _, by rw [List.take_length], ?_, ?_⟩
      · rw [List.take_length]
        omega
      · intro j hkj hjn
        omega

/-- The `_evict` loop returns the longest newest-first prefix whose size
fits (or the empty list, when even that does not fit a negative
capacity), and removes nothing that fits. -/
theorem evictLoop_spec (capacity : Int) :
    ∀ (es : List DynamicTableEntry),
      ∃ k, k ≤ es.length ∧ evictLoop capacity es = es.take k ∧
        ((currentSizeList (es.take k) : Int) ≤ capacity ∨ es.take k = []) ∧
        ∀ j, k < j → j ≤ es.length → (currentSizeList (es.take j) : Int) > capacity := by
  suffices H : ∀ (n : Nat) (es : List DynamicTableEntry), es.length = n →
      ∃ k, k ≤ es.length ∧ evictLoop capacity es = es.take k ∧
        ((currentSizeList (es.take k) : Int) ≤ capacity ∨ es.take k = []) ∧
        ∀ j, k < j → j ≤ es.length → (currentSizeList (es.take j) : Int) > capacity by
    intro es
    exact H es.length es rfl
  intro n
  induction n using Nat.strong_induction_on with
  | _ n ih =>
    intro es hlen
    rw [evictLoop]
    by_cases hc : (currentSizeList es : Int) > capacity ∧ es ≠ []
    · rw [if_pos hc]
      have hlpos : 1 ≤ es.length := by
        cases es
        · exact absurd rfl hc.2
        · simp
      have hdl : es.dropLast.length = es.length - 1 := by
        simp [List.length_dropLast]
      obtain ⟨k, hk, heq, hfit, hmin⟩ := ih (n - 1) (by omega) es.dropLast (by omega)
      have hdt : es.dropLast = es.take (es.length - 1) := List.dropLast_eq_take es
      have htk : ∀ j, j ≤ es.length - 1 → es.dropLast.take j = es.take j := by
        intro j hj
        rw [hdt, List.take_take, min_eq_left hj]
      rw [hdl] at hk
      refine ⟨k, by omega, ?_, ?_, ?_⟩
      · rw [heq, htk k hk]
      · rw [htk k hk] at hfit
        exact hfit
      · intro j hkj hjn
        by_cases hj : j ≤ es.length - 1
        · have := hmin j hkj (by omega)
          rw [htk j hj] at this
          exact this
        · have hje : j = es.length := by omega
          rw [hje, List.take_length]
          exact hc.1
    · rw [if_neg hc]
      push_neg at hc
      refine ⟨es.length, le_refl _, by rw [List.take_length], ?_, ?_⟩
      · rw [List.take_length]
        by_cases he : es = []
        · exact Or.inr he
        · refine Or.inl ?_
          by_contra hgt
          exact he (hc (by omega))
      · intro j hkj hjn
        omega

/-- `insert` when the candidate entry alone does not fit: fails with
EntryTooLarge before any mutation. -/
theorem tracker_insert_fail (t : DynamicTableTracker) (name value : List Nat)
    (h : ((name.length + value.length + ENTRY_OVERHEAD : Nat) : Int) > t.capacity) :
    t.insert name value = (.error .entryTooLarge, t) := by
  simp only [DynamicTableTracker.insert, DynamicTableEntry.size]
  rw [if_pos h]

/-- `insert` when the candidate entry alone fits: evicts the fewest
oldest entries needed, prepends the new entry and bumps the counter. -/
theorem tracker_insert_ok (t : DynamicTableTracker) (name value : List Nat)
    (h : ((name.length + value.length + ENTRY_OVERHEAD : Nat) : Int) ≤ t.capacity) :
    ∃ k, k ≤ t.entries.length ∧
      t.insert name value =
        (.ok (), ⟨{ name := name, value := value } :: t.entries.take k,
          t.capacity, t.insert_count + 1⟩) ∧
      ((currentSizeList (t.entries.take k) +
        (name.length + value.length + ENTRY_OVERHEAD) : Nat) : Int) ≤ t.capacity ∧
      ∀ j, k < j → j ≤ t.entries.length →
        ((currentSizeList (t.entries.take j) +
          (name.length + value.length + ENTRY_OVERHEAD) : Nat) : Int) > t.capacity := by
  obtain ⟨k, hk, heq, hfit, hmin⟩ := insertEvictLoop_spec t.capacity
    (name.length + value.length + ENTRY_OVERHEAD) t.entries (by push_cast at h ⊢; omega)
  refine ⟨k, hk, ?_, by push_cast at hfit ⊢; omega, ?_⟩
  · simp only [DynamicTableTracker.insert, DynamicTableEntry.size]
    rw [if_neg (by push_cast; omega), heq]
  · intro j hkj hjn
    have := hmin j hkj hjn
    push_cast at this ⊢
    omega

/-- Both outcomes of `insert` in one statement. -/
theorem tracker_insert_cases (t : DynamicTableTracker) (name value : List Nat) :
    ((t.insert name value).1 = .ok () ∧
      (t.insert name value).2.insert_count = t.insert_count + 1 ∧
      (t.insert name value).2.capacity = t.capacity) ∨
    (t.insert name value = (.error .entryTooLarge, t)) := by
  by_cases h : ((name.length + value.length + ENTRY_OVERHEAD : Nat) : Int) > t.capacity
  · exact Or.inr (tracker_insert_fail t name value h)
  · obtain ⟨k, _, heq, _, _⟩ := tracker_insert_ok t name value (by omega)
    rw [heq]
    exact Or.inl ⟨rfl, rfl, rfl⟩

/-- A failing `insert` leaves the tracker untouched. -/
theorem tracker_insert_error_state (t : DynamicTableTracker) (name value : List Nat)
    (e : QpackError) (h : (t.insert name value).1 = .error e) :
    (t.insert name value).2 = t ∧ e = .entryTooLarge := by
  rcases tracker_insert_cases t name value with ⟨hok, _, _⟩ | heq
  · rw [hok] at h
    exact Except.noConfusion h
  · rw [heq] at h ⊢
    injection h with h'
    exact ⟨rfl, h'.symm⟩

/-- C5: `insert` fails with EntryTooLarge exactly when the candidate
entry's size `len(name) + len(value) + 32` exceeds the capacity; on
success it removes exactly the fewest oldest (tail-end) entries needed,
keeps the survivors as a newest-first prefix of the old list, puts the
new entry at relative index 0 and increments `insert_count` by one. -/
theorem C5_tracker_insert_semantics :
    ∀ (t : DynamicTableTracker) (name value : List Nat),
      (((t.insert name value).1 = .error .entryTooLarge) ↔
        ((name.length + value.length + ENTRY_OVERHEAD : Nat) : Int) > t.capacity) ∧
      (((name.length + value.length + ENTRY_OVERHEAD : Nat) : Int) ≤ t.capacity →
        ∃ k, k ≤ t.entries.length ∧
          (t.insert name value).1 = .ok () ∧
          (t.insert name value).2.entries =
            { name := name, value := value } :: t.entries.take k ∧
          ((currentSizeList (t.entries.take k) +
            (name.length + value.length + ENTRY_OVERHEAD) : Nat) : Int) ≤ t.capacity ∧
          (∀ j, k < j → j ≤ t.entries.length →
            ((currentSizeList (t.entries.take j) +
              (name.length + value.length + ENTRY_OVERHEAD) : Nat) : Int) > t.capacity) ∧
          (t.insert name value).2.insert_count = t.insert_count + 1) := by
  intro t name value
  by_cases h : ((name.length + value.length + ENTRY_OVERHEAD : Nat) : Int) > t.capacity
  · rw [tracker_insert_fail t name value h]
    exact ⟨by simpa using h, fun hle => absurd h (by omega)⟩
  · obtain ⟨k, hk, heq, hfit, hmin⟩ := tracker_insert_ok t name value (by omega)
    rw [heq]
    constructor
    · constructor
      · intro hcontra
        exact Except.noConfusion hcontra
      · intro hgt
        exact absurd hgt h
    · intro _
      exact ⟨k, hk, rfl, rfl, hfit, hmin, rfl⟩

/-- C6: `insert_count` never decreases across tracker operations; it
grows by exactly 1 on every successful `insert` and `duplicate`, and is
unchanged by `set_capacity` (hence by eviction) and by failed
operations. -/
theorem C6_insert_count_monotonic :
    (∀ (t : DynamicTableTracker) (c : Int),
      (t.set_capacity c).insert_count = t.insert_count) ∧
    (∀ (t : DynamicTableTracker) (name value : List Nat),
      ((t.insert name value).1 = .ok () →
        (t.insert name value).2.insert_count = t.insert_count + 1) ∧
      (∀ e, (t.insert name value).1 = .error e →
        (t.insert name value).2.insert_count = t.insert_count) ∧
      t.insert_count ≤ (t.insert name value).2.insert_count) ∧
    (∀ (t : DynamicTableTracker) (i : Int),
      ((t.duplicate i).1 = .ok () →
        (t.duplicate i).2.insert_count = t.insert_count + 1) ∧
      (∀ e, (t.duplicate i).1 = .error e →
        (t.duplicate i).2.insert_count = t.insert_count) ∧
      t.insert_count ≤ (t.duplicate i).2.insert_count) := by
  have hins : ∀ (t : DynamicTableTracker) (name value : List Nat),
      ((t.insert name value).1 = .ok () →
        (t.insert name value).2.insert_count = t.insert_count + 1) ∧
      (∀ e, (t.insert name value).1 = .error e →
        (t.insert name value).2.insert_count = t.insert_count) ∧
      t.insert_count ≤ (t.insert name value).2.insert_count := by
    intro t name value
    rcases tracker_insert_cases t name value with ⟨hok, hcnt, _⟩ | heq
    · refine ⟨fun _ => hcnt, fun e he => ?_, by omega⟩
      rw [hok] at he
      exact Except.noConfusion he
    · rw [heq]
      exact ⟨fun hok' => Except.noConfusion hok', fun e _ => rfl, le_refl _⟩
  refine ⟨fun t c => rfl, hins, fun t i => ?_⟩
  by_cases hi : i < 0 ∨ i ≥ (t.entries.length : Int)
  · rw [DynamicTableTracker.duplicate, if_pos hi]
    exact ⟨fun hok' => Except.noConfusion hok', fun e _ => rfl, le_refl _⟩
  · rw [DynamicTableTracker.duplicate, if_neg hi]
    exact hins t _ _

/-- C3 counterexample: the tracker-level `set_capacity` does not validate
its argument, so `set_capacity(-1)` on a fresh tracker completes without
failing and leaves `current_size() = 0 > capacity = -1`: the claimed
invariant fails for that accepted argument. -/
theorem C3_table_size_counterexample :
    ¬(((initialTracker.set_capacity (-1)).current_size : Int) ≤
      (initialTracker.set_capacity (-1)).capacity) := by
  have he : evictLoop (-1) ([] : List DynamicTableEntry) = [] := by
    rw [evictLoop]
    simp
  simp [initialTracker, DynamicTableTracker.set_capacity,
    DynamicTableTracker.current_size, he, currentSizeList]

/-- C3 (amended): after `set_capacity` with a non-negative capacity
argument, and after every `insert` or `duplicate` that completes without
failing, the sum of the present entries' sizes is at most the capacity —
from every starting state.  (The amendment restricts `set_capacity` to
non-negative arguments, which is all the counterexample forces: the
unvalidated tracker accepts a negative capacity and then violates the
invariant vacuously, since nothing can be evicted below an empty table.) -/
theorem C3_table_size_invariant :
    (∀ (t : DynamicTableTracker) (c : Int), 0 ≤ c →
      ((t.set_capacity c).current_size : Int) ≤ (t.set_capacity c).capacity) ∧
    (∀ (t : DynamicTableTracker) (name value : List Nat),
      (t.insert name value).1 = .ok () →
      ((t.insert name value).2.current_size : Int) ≤
        (t.insert name value).2.capacity) ∧
    (∀ (t : DynamicTableTracker) (i : Int),
      (t.duplicate i).1 = .ok () →
      ((t.duplicate i).2.current_size : Int) ≤ (t.duplicate i).2.capacity) := by
  have hins : ∀ (t : DynamicTableTracker) (name value : List Nat),
      (t.insert name value).1 = .ok () →
      ((t.insert name value).2.current_size : Int) ≤
        (t.insert name value).2.capacity := by
    intro t name value hok
    by_cases h : ((name.length + value.length + ENTRY_OVERHEAD : Nat) : Int) >
        t.capacity
    · rw [tracker_insert_fail t name value h] at hok
      exact Except.noConfusion hok
    · obtain ⟨k, _, heq, hfit, _⟩ := tracker_insert_ok t name value (by omega)
      rw [heq, DynamicTableTracker.current_size]
      simp only [currentSizeList_cons, DynamicTableEntry.size]
      push_cast at hfit ⊢
      omega
  refine ⟨?_, hins, ?_⟩
  · intro t c hc
    obtain ⟨k, _, heq, hfit, _⟩ := evictLoop_spec c t.entries
    rw [DynamicTableTracker.set_capacity, DynamicTableTracker.current_size]
    simp only [heq]
    rcases hfit with hle | hnil
    · exact hle
    · rw [hnil, currentSizeList_nil]
      omega
  · intro t i hok
    by_cases hi : i < 0 ∨ i ≥ (t.entries.length : Int)
    · rw [DynamicTableTracker.duplicate, if_pos hi] at hok ⊢
      exact Except.noConfusion hok
    · rw [DynamicTableTracker.duplicate, if_neg hi] at hok ⊢
      exact hins t _ _ hok

/-- C4: every `ManualQpackEncoder` method that fails leaves the encoder
state — tracker entries, capacity and insert count, and the capacity
ceiling — exactly as it was before the call. -/
theorem C4_encoder_atomicity :
    (∀ (s : ManualQpackEncoder) (c : Int) (e : QpackError),
      (s.set_capacity c).1 = .error e → (s.set_capacity c).2 = s) ∧
    (∀ (s : ManualQpackEncoder) (i : Int) (v : List Nat) (st : Bool) (e : QpackError),
      (s.insert_name_ref i v st).1 = .error e → (s.insert_name_ref i v st).2 = s) ∧
    (∀ (s : ManualQpackEncoder) (n v : List Nat) (e : QpackError),
      (s.insert_literal n v).1 = .error e → (s.insert_literal n v).2 = s) ∧
    (∀ (s : ManualQpackEncoder) (i : Int) (e : QpackError),
      (s.duplicate i).1 = .error e → (s.duplicate i).2 = s) := by
  refine ⟨?_, ?_, ?_, ?_⟩
  · intro s c e
    rw [ManualQpackEncoder.set_capacity]
    by_cases h1 : c < 0
    · rw [if_pos h1]
      intro _
      rfl
    · rw [if_neg h1]
      by_cases h2 : c > s.max_table_capacity
      · rw [if_pos h2]
        intro _
        rfl
      · rw [if_neg h2]
        rcases hb : set_dynamic_table_capacity c with eb | bs
        · intro _
          rfl
        · intro hcontra
          exact Except.noConfusion hcontra
  · intro s i v st e
    rw [ManualQpackEncoder.insert_name_ref]
    rcases hn : (if st = true then
        if i < 0 ∨ i ≥ (STATIC_TABLE_SIZE : Int) then
          (.error .indexOutOfRange : Except QpackError (List Nat))
        else .ok (STATIC_TABLE.getD i.toNat ([], [])).1
      else
        if i < 0 ∨ i ≥ (s.table.entries.length : Int) then .error .indexOutOfRange
        else .ok (s.table.entries.getD i.toNat ⟨[], []⟩).name) with en | name
    · intro _
      rfl
    · dsimp only
      by_cases hsz : ((name.length + v.length + ENTRY_OVERHEAD : Nat) : Int) >
          s.table.capacity
      · rw [if_pos hsz]
        intro _
        rfl
      · rw [if_neg hsz]
        rcases hbuild : insert_with_name_ref i v st with eb | bs
        · intro _
          rfl
        · rcases hins : s.table.insert name v with ⟨r, t2⟩
          rcases r with er | u
          · have h2 := tracker_insert_error_state s.table name v er (by rw [hins])
            rw [hins] at h2
            intro _
            have ht2 : t2 = s.table := h2.1
            rw [ht2]
          · intro hcontra
            exact Except.noConfusion hcontra
  · intro s n v e
    rw [ManualQpackEncoder.insert_literal]
    by_cases hsz : ((n.length + v.length + ENTRY_OVERHEAD : Nat) : Int) >
        s.table.capacity
    · rw [if_pos hsz]
      intro _
      rfl
    · rw [if_neg hsz]
      rcases hbuild : insert_with_literal_name n v with eb | bs
      · intro _
        rfl
      · rcases hins : s.table.insert n v with ⟨r, t2⟩
        rcases r with er | u
        · have h2 := tracker_insert_error_state s.table n v er (by rw [hins])
          rw [hins] at h2
          intro _
          have ht2 : t2 = s.table := h2.1
          rw [ht2]
        · intro hcontra
          exact Except.noConfusion hcontra
  · intro s i e
    rw [ManualQpackEncoder.duplicate]
    by_cases hi : i < 0 ∨ i ≥ (s.table.entries.length : Int)
    · rw [if_pos hi]
      intro _
      rfl
    · rw [if_neg hi]
      rcases hbuild : duplicateInstruction i with eb | bs
      · intro _
        rfl
      · rcases hdup : s.table.duplicate i with ⟨r, t2⟩
        rcases r with er | u
        · rw [DynamicTableTracker.duplicate, if_neg hi] at hdup
          have h2 := tracker_insert_error_state s.table _ _ er (by rw [hdup])
          rw [hdup] at h2
          intro _
          have ht2 : t2 = s.table := h2.1
          rw [ht2]
        · intro hcontra
          exact Except.noConfusion hcontra

/-! ### Encoder instruction lemmas -/

theorem lor_flag_32 : ∀ x : Nat, x < 32 → x ||| 32 = x + 32 := by decide

theorem flag_bits_32 : ∀ x : Nat, x < 32 →
    (x + 32) &&& 0xE0 = 0x20 ∧ (x + 32) >>> 5 = 1 := by decide

/-- `encode_string` without Huffman always succeeds: a 7-bit length
prefix followed by the literal bytes. -/
theorem encode_string_ok (v : List Nat) :
    ∃ lb, encode_integer ((v.length : Nat) : Int) 7 = .ok lb ∧ lb ≠ [] ∧
      encode_string v false = .ok (lb ++ v) := by
  obtain ⟨b, tl, he, _, _⟩ := decode_encode_with_flag v.length 7 0 []
    (by norm_num) (by norm_num) (by simp)
  refine ⟨b :: tl, he, by simp, ?_⟩
  rw [encode_string, if_neg (by simp), he]

/-- `set_dynamic_table_capacity` on a non-negative capacity: the 5-bit
integer encoding of the capacity with the `001` opcode OR-ed into the
first byte. -/
theorem set_dynamic_table_capacity_ok (c : Int) (hc : 0 ≤ c) :
    ∃ b tl, encode_integer c 5 = .ok (b :: tl) ∧ b < 32 ∧
      set_dynamic_table_capacity c = .ok ((b ||| 0x20) :: tl) ∧
      decode_integer ((b ||| 0x20) :: tl) 0 5 = .ok (c.toNat, tl.length + 1) := by
  obtain ⟨b, tl, he, hb, hd⟩ := decode_encode_with_flag c.toNat 5 0x20 []
    (by norm_num) (by norm_num) (by decide)
  rw [Int.toNat_of_nonneg hc] at he
  refine ⟨b, tl, he, by exact hb, ?_, by simpa using hd⟩
  rw [set_dynamic_table_capacity, if_neg (by omega), he]

/-- C7: with a non-negative requested capacity, the encoder's
`set_capacity` fails (with CapacityExceedsLimit, touching nothing) exactly
when the capacity exceeds `max_table_capacity`; otherwise it returns the
Set Dynamic Table Capacity instruction — top three bits `001`, the
capacity in a 5-bit-prefixed integer that decodes back — and the
tracker's capacity becomes the argument with oldest entries evicted until
the total size fits. -/
theorem C7_encoder_set_capacity (s : ManualQpackEncoder) (c : Int) (hc : 0 ≤ c) :
    (((s.set_capacity c).1 = .error .capacityExceedsLimit) ↔
      c > s.max_table_capacity) ∧
    (c > s.max_table_capacity → (s.set_capacity c).2 = s) ∧
    (c ≤ s.max_table_capacity →
      ∃ instr, (s.set_capacity c).1 = .ok instr ∧
        instr.headD 0 &&& 0xE0 = 0x20 ∧
        instr.headD 0 >>> 5 = 1 ∧
        decode_integer instr 0 5 = .ok (c.toNat, instr.length) ∧
        (s.set_capacity c).2.max_table_capacity = s.max_table_capacity ∧
        (s.set_capacity c).2.table.capacity = c ∧
        (s.set_capacity c).2.table.insert_count = s.table.insert_count ∧
        ∃ k, k ≤ s.table.entries.length ∧
          (s.set_capacity c).2.table.entries = s.table.entries.take k ∧
          ((s.set_capacity c).2.table.current_size : Int) ≤ c ∧
          ∀ j, k < j → j ≤ s.table.entries.length →
            (currentSizeList (s.table.entries.take j) : Int) > c) := by
  have hneg : ¬c < 0 := by omega
  by_cases hgt : c > s.max_table_capacity
  · have hres : s.set_capacity c = (.error .capacityExceedsLimit, s) := by
      rw [ManualQpackEncoder.set_capacity, if_neg hneg, if_pos hgt]
    rw [hres]
    exact ⟨by simpa using hgt, fun _ => rfl, fun hle => absurd hgt (by omega)⟩
  · obtain ⟨b, tl, he, hb, hset, hdec⟩ := set_dynamic_table_capacity_ok c hc
    have hres : s.set_capacity c =
        (.ok ((b ||| 0x20) :: tl), { s with table := s.table.set_capacity c }) := by
      rw [ManualQpackEncoder.set_capacity, if_neg hneg, if_neg hgt, hset]
    rw [hres]
    obtain ⟨hmask, hshift⟩ := flag_bits_32 b hb
    have h32 : b ||| 32 = b + 32 := lor_flag_32 b hb
    refine ⟨⟨fun hcontra => Except.noConfusion hcontra, fun hgt' => absurd hgt' hgt⟩,
      fun hgt' => absurd hgt' hgt, fun _ => ?_⟩
    obtain ⟨k, hk, heq, hfit, hmin⟩ := evictLoop_spec c s.table.entries
    refine ⟨(b ||| 0x20) :: tl, rfl, by rw [List.headD_cons, h32]; exact hmask,
      by rw [List.headD_cons, h32]; exact hshift, by simpa using hdec,
      rfl, rfl, rfl, k, hk, ?_, ?_, hmin⟩
    · simp only [DynamicTableTracker.set_capacity]
      exact heq
    · simp only [DynamicTableTracker.set_capacity, DynamicTableTracker.current_size]
      rw [heq]
      rcases hfit with hle | hnil
      · exact hle
      · rw [hnil, currentSizeList_nil]
        omega

/-- C7 witness: a fresh encoder with ceiling 100 accepts capacity 10. -/
theorem C7_encoder_set_capacity_witness :
    ((((ManualQpackEncoder.init 100).set_capacity 10).1 =
        .error .capacityExceedsLimit) ↔
      (10 : Int) > (ManualQpackEncoder.init 100).max_table_capacity) :=
  (C7_encoder_set_capacity (ManualQpackEncoder.init 100) 10 (by norm_num)).1

theorem flag_bits_ref : ∀ x : Nat, x < 64 →
    x ||| 0x80 = x + 128 ∧ (x ||| 0x80) ||| 0x40 = x + 192 ∧
    (x + 128) ||| 0x40 = x + 192 ∧
    (x + 128) &&& 0x80 ≠ 0 ∧ (x + 128) &&& 0x40 = 0 ∧
    (x + 192) &&& 0x80 ≠ 0 ∧ (x + 192) &&& 0x40 = 0x40 := by decide

/-- `insert_with_name_ref` on a non-negative index: high bit set, S bit
set exactly for a static reference, the index in a 6-bit-prefixed integer
that decodes back, then the value as a length-prefixed string. -/
theorem insert_with_name_ref_ok (i : Int) (v : List Nat) (st : Bool) (hi : 0 ≤ i) :
    ∃ b tl lb, encode_integer i 6 = .ok (b :: tl) ∧ b < 64 ∧
      encode_integer ((v.length : Nat) : Int) 7 = .ok lb ∧
      insert_with_name_ref i v st =
        .ok (((if st then b + 192 else b + 128) :: tl) ++ (lb ++ v)) ∧
      decode_integer (((if st then b + 192 else b + 128) :: tl) ++ (lb ++ v)) 0 6 =
        .ok (i.toNat, tl.length + 1) := by
  obtain ⟨lb, hlb, hlbne, hstr⟩ := encode_string_ok v
  have hf : (if st then (192 : Nat) else 128) % 2 ^ (6 : Int).toNat = 0 := by
    cases st <;> decide
  obtain ⟨b, tl, he, hb, hd⟩ := decode_encode_with_flag i.toNat 6
    (if st then 192 else 128) (lb ++ v) (by norm_num) (by norm_num) hf
  rw [Int.toNat_of_nonneg hi] at he
  have hb64 : b < 64 := by norm_num at hb; exact hb
  obtain ⟨h128, h192, hadd, _, _, _, _⟩ := flag_bits_ref b hb64
  have hflag : (if st then (b ||| 0x80) ||| 0x40 else b ||| 0x80) =
      (if st then b + 192 else b + 128) := by
    cases st <;> simp [h128, h192, hadd]
  have hlor : b ||| (if st then (192 : Nat) else 128) =
      (if st then b + 192 else b + 128) := by
    cases st
    · simpa using h128
    · simp only [if_true]
      nth_rewrite 1 [show (192 : Nat) = 128 ||| 64 from by decide]
      rw [← Nat.lor_assoc, h128, hadd]
  refine ⟨b, tl, lb, he, hb64, hlb, ?_, by rw [← hlor]; exact hd⟩
  rw [insert_with_name_ref, if_neg (by omega), he]
  dsimp only
  rw [hstr]
  dsimp only
  rw [hflag]

/-- C8: `insert_name_ref` fails with IndexOutOfRange exactly when the
index misses the chosen table (static: outside `[0, 98]`; dynamic:
outside the present entries); with a valid index it resolves the name
from that table, fails with EntryTooLarge before building anything when
`len(name) + len(value) + 32` exceeds the capacity, and otherwise
returns the Insert With Name Reference bytes — top bit set, S bit equal
to `is_static`, the index in a 6-bit-prefixed integer that decodes back,
then the value as a length-prefixed string — and inserts the resolved
entry into the tracker. -/
theorem C8_encoder_insert_name_ref :
    ∀ (s : ManualQpackEncoder) (i : Int) (v : List Nat) (st : Bool),
      ((s.insert_name_ref i v st).1 = .error .indexOutOfRange ↔
        (if st then i < 0 ∨ i ≥ (STATIC_TABLE_SIZE : Int)
         else i < 0 ∨ i ≥ (s.table.entries.length : Int))) ∧
      (¬(if st then i < 0 ∨ i ≥ (STATIC_TABLE_SIZE : Int)
          else i < 0 ∨ i ≥ (s.table.entries.length : Int)) →
        ∀ name, name = (if st then (STATIC_TABLE.getD i.toNat ([], [])).1
            else (s.table.entries.getD i.toNat ⟨[], []⟩).name) →
          ((((name.length + v.length + ENTRY_OVERHEAD : Nat) : Int) >
              s.table.capacity →
            s.insert_name_ref i v st = (.error .entryTooLarge, s)) ∧
           (((name.length + v.length + ENTRY_OVERHEAD : Nat) : Int) ≤
              s.table.capacity →
            ∃ b tl lb, encode_integer i 6 = .ok (b :: tl) ∧
              encode_integer ((v.length : Nat) : Int) 7 = .ok lb ∧
              (s.insert_name_ref i v st).1 =
                .ok (((if st then b + 192 else b + 128) :: tl) ++ (lb ++ v)) ∧
              (if st then b + 192 else b + 128) &&& 0x80 ≠ 0 ∧
              ((if st then b + 192 else b + 128) &&& 0x40 =
                if st then 0x40 else 0) ∧
              decode_integer
                (((if st then b + 192 else b + 128) :: tl) ++ (lb ++ v)) 0 6 =
                .ok (i.toNat, tl.length + 1) ∧
              (((if st then b + 192 else b + 128) :: tl) ++ (lb ++ v)).drop
                (tl.length + 1) = lb ++ v ∧
              ∃ k, k ≤ s.table.entries.length ∧
                (s.insert_name_ref i v st).2 =
                  { table := ⟨{ name := name, value := v } ::
                        s.table.entries.take k,
                      s.table.capacity, s.table.insert_count + 1⟩,
                    max_table_capacity := s.max_table_capacity }))) := by
  intro s i v st
  by_cases hbad : (if st then i < 0 ∨ i ≥ (STATIC_TABLE_SIZE : Int)
      else i < 0 ∨ i ≥ (s.table.entries.length : Int))
  · have hres : s.insert_name_ref i v st = (.error .indexOutOfRange, s) := by
      rw [ManualQpackEncoder.insert_name_ref]
      cases st
      · simp only [Bool.false_eq_true, if_false]
        simp only [Bool.false_eq_true, if_false] at hbad
        rw [if_pos hbad]
      · simp only [if_true]
        simp only [if_true] at hbad
        rw [if_pos hbad]
    rw [hres]
    exact ⟨⟨fun _ => hbad, fun _ => rfl⟩, fun hgood => absurd hbad hgood⟩
  · have hi0 : 0 ≤ i := by
      cases st
      · simp only [Bool.false_eq_true, if_false] at hbad
        omega
      · simp only [if_true] at hbad
        omega
    have hnr : (if st then
          (if i < 0 ∨ i ≥ (STATIC_TABLE_SIZE : Int) then
            (.error .indexOutOfRange : Except QpackError (List Nat))
          else .ok (STATIC_TABLE.getD i.toNat ([], [])).1)
        else
          (if i < 0 ∨ i ≥ (s.table.entries.length : Int) then
            .error .indexOutOfRange
          else .ok (s.table.entries.getD i.toNat ⟨[], []⟩).name)) =
        .ok (if st then (STATIC_TABLE.getD i.toNat ([], [])).1
          else (s.table.entries.getD i.toNat ⟨[], []⟩).name) := by
      cases st
      · simp only [Bool.false_eq_true, if_false] at hbad ⊢
        rw [if_neg hbad]
      · simp only [if_true] at hbad ⊢
        rw [if_neg hbad]
    have hresBig : ∀ name, name = (if st then (STATIC_TABLE.getD i.toNat ([], [])).1
        else (s.table.entries.getD i.toNat ⟨[], []⟩).name) →
        ((name.length + v.length + ENTRY_OVERHEAD : Nat) : Int) >
          s.table.capacity →
        s.insert_name_ref i v st = (.error .entryTooLarge, s) := by
      intro name hname0 hsz
      rw [ManualQpackEncoder.insert_name_ref, hnr, ← hname0]
      dsimp only
      rw [if_pos hsz]
    have hresFit : ∀ name, name = (if st then (STATIC_TABLE.getD i.toNat ([], [])).1
        else (s.table.entries.getD i.toNat ⟨[], []⟩).name) →
        ((name.length + v.length + ENTRY_OVERHEAD : Nat) : Int) ≤
          s.table.capacity →
        ∃ b tl lb, encode_integer i 6 = .ok (b :: tl) ∧ b < 64 ∧
          encode_integer ((v.length : Nat) : Int) 7 = .ok lb ∧
          decode_integer (((if st then b + 192 else b + 128) :: tl) ++ (lb ++ v))
            0 6 = .ok (i.toNat, tl.length + 1) ∧
          ∃ k, k ≤ s.table.entries.length ∧
            s.insert_name_ref i v st =
              (.ok (((if st then b + 192 else b + 128) :: tl) ++ (lb ++ v)),
               { table := ⟨{ name := name, value := v } :: s.table.entries.take k,
                   s.table.capacity, s.table.insert_count + 1⟩,
                 max_table_capacity := s.max_table_capacity }) := by
      intro name hname0 hsz
      obtain ⟨b, tl, lb, he6, hb64, hlb, hbuild, hdec⟩ :=
        insert_with_name_ref_ok i v st hi0
      obtain ⟨k, hk, hins, _, _⟩ := tracker_insert_ok s.table name v (by omega)
      refine ⟨b, tl, lb, he6, hb64, hlb, hdec, k, hk, ?_⟩
      rw [ManualQpackEncoder.insert_name_ref, hnr, ← hname0]
      dsimp only
      rw [if_neg (by omega), hbuild, hins]
    constructor
    · constructor
      · intro herr
        by_cases hsz : ((((if st then (STATIC_TABLE.getD i.toNat ([], [])).1
            else (s.table.entries.getD i.toNat ⟨[], []⟩).name).length +
            v.length + ENTRY_OVERHEAD : Nat) : Int) > s.table.capacity)
        · rw [hresBig _ rfl hsz] at herr
          injection herr with h'
          exact absurd h' (by simp)
        · obtain ⟨b, tl, lb, _, _, _, _, k, _, hres⟩ := hresFit _ rfl (by omega)
          rw [hres] at herr
          exact Except.noConfusion herr
      · intro hc
        exact absurd hc hbad
    · intro hgood name hname0
      refine ⟨hresBig name hname0, fun hsz => ?_⟩
      obtain ⟨b, tl, lb, he6, hb64, hlb, hdec, k, hk, hres⟩ :=
        hresFit name hname0 hsz
      obtain ⟨q1, q2, q3, q4, q5, q6, q7⟩ := flag_bits_ref b hb64
      refine ⟨b, tl, lb, he6, hlb, by rw [hres], ?_, ?_, hdec, ?_, k, hk, by rw [hres]⟩
      · cases st
        · simpa using q4
        · simpa using q6
      · cases st
        · simpa using q5
        · simpa using q7
      · have hlen : tl.length + 1 =
            (((if st then b + 192 else b + 128) :: tl)).length := by simp
        rw [hlen, List.drop_left]

/-! ### Reachable encoder states and the per-entry size invariant -/

/-- The invariant maintained by every reachable encoder state: the
tracker's capacity is non-negative (the encoder validates it) and every
present entry fits the capacity on its own. -/
def EncInv (s : ManualQpackEncoder) : Prop :=
  0 ≤ s.table.capacity ∧
  ∀ e ∈ s.table.entries, (e.size : Int) ≤ s.table.capacity

/-- Encoder states reachable from a fresh `ManualQpackEncoder` by any
sequence of method calls (successful or failed) and assignments to the
`max_table_capacity` setter. -/
inductive Reachable : ManualQpackEncoder → Prop where
  | init (m : Int) : Reachable (ManualQpackEncoder.init m)
  | set_capacity {s} (c : Int) : Reachable s → Reachable (s.set_capacity c).2
  | insert_name_ref {s} (i : Int) (v : List Nat) (st : Bool) :
      Reachable s → Reachable (s.insert_name_ref i v st).2
  | insert_literal {s} (n v : List Nat) :
      Reachable s → Reachable (s.insert_literal n v).2
  | dup {s} (i : Int) : Reachable s → Reachable (s.duplicate i).2
  | set_max {s} (m : Int) :
      Reachable s → Reachable { s with max_table_capacity := m }

theorem inv_tracker_set_capacity (t : DynamicTableTracker) (c : Int) (hc : 0 ≤ c) :
    0 ≤ (t.set_capacity c).capacity ∧
    ∀ e ∈ (t.set_capacity c).entries, (e.size : Int) ≤ (t.set_capacity c).capacity := by
  obtain ⟨k, _, heq, hfit, _⟩ := evictLoop_spec c t.entries
  simp only [DynamicTableTracker.set_capacity]
  refine ⟨hc, fun e he => ?_⟩
  rw [heq] at he
  rcases hfit with hle | hnil
  · have := size_le_currentSizeList he
    omega
  · rw [hnil] at he
    exact absurd he (List.not_mem_nil e)

theorem inv_tracker_insert (t : DynamicTableTracker) (n v : List Nat)
    (h0 : 0 ≤ t.capacity)
    (hinv : ∀ e ∈ t.entries, (e.size : Int) ≤ t.capacity) :
    0 ≤ (t.insert n v).2.capacity ∧
    ∀ e ∈ (t.insert n v).2.entries, (e.size : Int) ≤ (t.insert n v).2.capacity := by
  by_cases h : ((n.length + v.length + ENTRY_OVERHEAD : Nat) : Int) > t.capacity
  · rw [tracker_insert_fail t n v h]
    exact ⟨h0, hinv⟩
  · obtain ⟨k, _, heq, _, _⟩ := tracker_insert_ok t n v (by omega)
    rw [heq]
    refine ⟨h0, fun e he => ?_⟩
    rcases List.mem_cons.mp he with he1 | he2
    · rw [he1]
      simp only [DynamicTableEntry.size]
      omega
    · exact hinv e (List.take_subset k t.entries he2)

theorem inv_tracker_duplicate (t : DynamicTableTracker) (i : Int)
    (h0 : 0 ≤ t.capacity)
    (hinv : ∀ e ∈ t.entries, (e.size : Int) ≤ t.capacity) :
    0 ≤ (t.duplicate i).2.capacity ∧
    ∀ e ∈ (t.duplicate i).2.entries, (e.size : Int) ≤ (t.duplicate i).2.capacity := by
  by_cases hi : i < 0 ∨ i ≥ (t.entries.length : Int)
  · rw [DynamicTableTracker.duplicate, if_pos hi]
    exact ⟨h0, hinv⟩
  · rw [DynamicTableTracker.duplicate, if_neg hi]
    exact inv_tracker_insert t _ _ h0 hinv

/-- The state an encoder `set_capacity` call leaves behind. -/
theorem encoder_set_capacity_state (s : ManualQpackEncoder) (c : Int) :
    (s.set_capacity c).2 = s ∨
    (0 ≤ c ∧ (s.set_capacity c).2 = { s with table := s.table.set_capacity c }) := by
  by_cases h1 : c < 0
  · left
    rw [ManualQpackEncoder.set_capacity, if_pos h1]
  · by_cases h2 : c > s.max_table_capacity
    · left
      rw [ManualQpackEncoder.set_capacity, if_neg h1, if_pos h2]
    · obtain ⟨b, tl, _, _, hset, _⟩ := set_dynamic_table_capacity_ok c (by omega)
      right
      refine ⟨by omega, ?_⟩
      rw [ManualQpackEncoder.set_capacity, if_neg h1, if_neg h2, hset]

/-- `insert_with_literal_name` never fails. -/
theorem insert_with_literal_name_ok (n v : List Nat) :
    ∃ bs, insert_with_literal_name n v = .ok bs := by
  obtain ⟨lbn, _, hnne, hn⟩ := encode_string_ok n
  obtain ⟨lbv, _, _, hv⟩ := encode_string_ok v
  cases lbn with
  | nil => exact absurd rfl hnne
  | cons b rest =>
    rw [List.cons_append] at hn
    refine ⟨(b ||| 0x40) :: ((rest ++ n) ++ (lbv ++ v)), ?_⟩
    unfold insert_with_literal_name
    rw [hn]
    dsimp only
    rw [hv]
    rfl

/-- The state an encoder `insert_literal` call leaves behind. -/
theorem encoder_insert_literal_state (s : ManualQpackEncoder) (n v : List Nat) :
    (s.insert_literal n v).2 = s ∨
    (s.insert_literal n v).2 = { s with table := (s.table.insert n v).2 } := by
  by_cases h : ((n.length + v.length + ENTRY_OVERHEAD : Nat) : Int) > s.table.capacity
  · left
    rw [ManualQpackEncoder.insert_literal, if_pos h]
  · obtain ⟨bs, hbs⟩ := insert_with_literal_name_ok n v
    rw [ManualQpackEncoder.insert_literal, if_neg h, hbs]
    rcases hins : s.table.insert n v with ⟨r, t2⟩
    rcases r with er | u
    · right
      rfl
    · right
      rfl

/-- The state an encoder `insert_name_ref` call leaves behind. -/
theorem encoder_insert_name_ref_state (s : ManualQpackEncoder) (i : Int)
    (v : List Nat) (st : Bool) :
    (s.insert_name_ref i v st).2 = s ∨
    ∃ name, (s.insert_name_ref i v st).2 =
      { s with table := (s.table.insert name v).2 } := by
  rw [ManualQpackEncoder.insert_name_ref]
  rcases hn : (if st = true then
      (if i < 0 ∨ i ≥ (STATIC_TABLE_SIZE : Int) then
        (.error .indexOutOfRange : Except QpackError (List Nat))
      else .ok (STATIC_TABLE.getD i.toNat ([], [])).1)
    else
      (if i < 0 ∨ i ≥ (s.table.entries.length : Int) then .error .indexOutOfRange
      else .ok (s.table.entries.getD i.toNat ⟨[], []⟩).name)) with en | name
  · left
    rfl
  · dsimp only
    by_cases hsz : ((name.length + v.length + ENTRY_OVERHEAD : Nat) : Int) >
        s.table.capacity
    · left
      rw [if_pos hsz]
    · rw [if_neg hsz]
      rcases hbuild : insert_with_name_ref i v st with eb | bs
      · left
        rfl
      · rcases hins : s.table.insert name v with ⟨r, t2⟩
        rcases r with er | u
        · right
          exact ⟨name, by rw [hins]⟩
        · right
          exact ⟨name, by rw [hins]⟩

/-- The state an encoder `duplicate` call leaves behind. -/
theorem encoder_duplicate_state (s : ManualQpackEncoder) (i : Int) :
    (s.duplicate i).2 = s ∨
    (s.duplicate i).2 = { s with table := (s.table.duplicate i).2 } := by
  by_cases hi : i < 0 ∨ i ≥ (s.table.entries.length : Int)
  · left
    rw [ManualQpackEncoder.duplicate, if_pos hi]
  · rw [ManualQpackEncoder.duplicate, if_neg hi]
    rcases hbuild : duplicateInstruction i with eb | bs
    · left
      rfl
    · rcases hdup : s.table.duplicate i with ⟨r, t2⟩
      rcases r with er | u
      · right
        rfl
      · right
        rfl

/-- Every reachable encoder state satisfies the invariant. -/
theorem reachable_inv {s : ManualQpackEncoder} (h : Reachable s) : EncInv s := by
  induction h with
  | init m =>
    exact ⟨le_refl 0, fun e he => absurd he (List.not_mem_nil e)⟩
  | set_capacity c _ ih =>
    rcases encoder_set_capacity_state _ c with heq | ⟨hc, heq⟩
    · rw [heq]
      exact ih
    · rw [heq]
      exact inv_tracker_set_capacity _ c hc
  | insert_name_ref i v st _ ih =>
    rcases encoder_insert_name_ref_state _ i v st with heq | ⟨name, heq⟩
    · rw [heq]
      exact ih
    · rw [heq]
      exact inv_tracker_insert _ name v ih.1 ih.2
  | insert_literal n v _ ih =>
    rcases encoder_insert_literal_state _ n v with heq | heq
    · rw [heq]
      exact ih
    · rw [heq]
      exact inv_tracker_insert _ n v ih.1 ih.2
  | dup i _ ih =>
    rcases encoder_duplicate_state _ i with heq | heq
    · rw [heq]
      exact ih
    · rw [heq]
      exact inv_tracker_duplicate _ i ih.1 ih.2
  | set_max m _ ih =>
    exact ih

/-- C10: in every encoder state reachable from a fresh
`ManualQpackEncoder` by any sequence of (successful or failed) calls,
each present entry's size is at most the tracker's capacity; hence
`duplicate` with a relative index that addresses a present entry never
fails with EntryTooLarge, even though the instruction bytes are built
before the tracker mutation runs. -/
theorem C10_duplicate_never_too_large (s : ManualQpackEncoder)
    (h : Reachable s) :
    (∀ e ∈ s.table.entries, (e.size : Int) ≤ s.table.capacity) ∧
    ∀ i : Int, ¬(i < 0 ∨ i ≥ (s.table.entries.length : Int)) →
      (s.duplicate i).1 ≠ .error .entryTooLarge := by
  have hinv := reachable_inv h
  refine ⟨hinv.2, fun i hi => ?_⟩
  have hi0 : 0 ≤ i := by omega
  have hilt : i.toNat < s.table.entries.length := by omega
  obtain ⟨b, tl, he, _, _⟩ := decode_encode_with_flag i.toNat 5 0 []
    (by norm_num) (by norm_num) (by simp)
  rw [Int.toNat_of_nonneg hi0] at he
  have hbs : duplicateInstruction i = .ok (b :: tl) := by
    rw [duplicateInstruction, if_neg (by omega)]
    exact he
  have hmem : s.table.entries.getD i.toNat ⟨[], []⟩ ∈ s.table.entries := by
    rw [List.getD_eq_getElem s.table.entries ⟨[], []⟩ hilt]
    exact List.getElem_mem hilt
  have hsz := hinv.2 _ hmem
  obtain ⟨k, _, hins, _, _⟩ := tracker_insert_ok s.table
    (s.table.entries.getD i.toNat ⟨[], []⟩).name
    (s.table.entries.getD i.toNat ⟨[], []⟩).value
    (by simp only [DynamicTableEntry.size] at hsz; exact hsz)
  rw [ManualQpackEncoder.duplicate, if_neg hi, hbs]
  dsimp only
  rw [DynamicTableTracker.duplicate, if_neg hi]
  dsimp only
  rw [hins]
  intro hcontra
  exact Except.noConfusion hcontra

/-- A concrete reachable encoder for the C10 witness: ceiling 100, table
capacity 100, one (`x`, `y`) entry. -/
def reachableSample : ManualQpackEncoder :=
  (((ManualQpackEncoder.init 100).set_capacity 100).2.insert_literal
    [120] [121]).2

/-- C10 witness: the invariant and the no-EntryTooLarge guarantee at the
concrete reachable state with one entry. -/
theorem C10_duplicate_never_too_large_witness :
    (∀ e ∈ reachableSample.table.entries,
      (e.size : Int) ≤ reachableSample.table.capacity) ∧
    ∀ i : Int, ¬(i < 0 ∨ i ≥ (reachableSample.table.entries.length : Int)) →
      (reachableSample.duplicate i).1 ≠ .error .entryTooLarge :=
  C10_duplicate_never_too_large reachableSample
    (Reachable.insert_literal [120] [121]
      (Reachable.set_capacity 100 (Reachable.init 100)))
